import Mathlib

/-!
Verification of the automatos repository: a nondeterministic finite automaton
with lambda (epsilon) transitions and a worklist closure computation, a
deterministic finite automaton, and the mutator-based construction interface.

Embedding choices.  Python dictionaries keyed by (state, symbol) pairs are
embedded as association lists with unique keys maintained by the update
operation.  Python sets that are only tested for membership (states,
alphabet, accepting states) become finsets; Python sets that the code
iterates over (destination sets of transitions, the active state sets of
the simulation) become lists, kept duplicate-free by a set-add operation,
so that every definition stays executable.  The Python value None used for
an unconfigured start state or the result of a failed dict lookup becomes
Option.none, and the empty-string lambda symbol becomes the none case of
an optional symbol.
-/

namespace Automatos

section Dict

variable {κ α : Type} [DecidableEq κ]

/-- Lookup in an association list embedding of a Python dict:
the first binding of the key, if any. -/
def dictLookup : List (κ × α) → κ → Option α
  | [], _ => none
  | (k, v) :: rest, key => if key = k then some v else dictLookup rest key

/-- Update in an association list embedding of a Python dict: replace the
value at the key when present, otherwise append the new binding at the end
(Python dicts keep insertion order). -/
def dictSet : List (κ × α) → κ → α → List (κ × α)
  | [], key, val => [(key, val)]
  | (k, v) :: rest, key, val =>
      if key = k then (key, val) :: rest else (k, v) :: dictSet rest key val

/-- Lookup with a default, embedding the Python pattern of reading a dict
entry when the key is present and falling back to an empty set otherwise. -/
def dictGetD (l : List (κ × α)) (k : κ) (d : α) : α :=
  (dictLookup l k).getD d

theorem dictLookup_dictSet (l : List (κ × α)) (k k' : κ) (v : α) :
    dictLookup (dictSet l k v) k' = if k' = k then some v else dictLookup l k' := by
  induction l with
  | nil => simp [dictSet, dictLookup]
  | cons hd tl ih =>
      obtain ⟨a, b⟩ := hd
      by_cases hk : k = a
      · subst hk
        by_cases hk' : k' = k <;> simp [dictSet, dictLookup, hk']
      · by_cases hk' : k' = a
        · subst hk'
          simp [dictSet, dictLookup, hk, Ne.symm hk, ih]
        · simp [dictSet, dictLookup, hk, hk', ih]

theorem dictSet_dictSet_same (l : List (κ × α)) (k : κ) (v w : α) :
    dictSet (dictSet l k v) k w = dictSet l k w := by
  induction l with
  | nil => simp [dictSet]
  | cons hd tl ih =>
      obtain ⟨a, b⟩ := hd
      by_cases hk : k = a <;> simp [dictSet, hk, ih]

end Dict

section SetAdd

variable {Q : Type} [DecidableEq Q]

/-- The add method of a Python set, on its list embedding: append the
element when it is not already present. -/
def setAdd (l : List Q) (x : Q) : List Q :=
  if x ∈ l then l else l ++ [x]

theorem mem_setAdd (l : List Q) (x y : Q) :
    y ∈ setAdd l x ↔ y ∈ l ∨ y = x := by
  by_cases h : x ∈ l
  · simp only [setAdd, if_pos h]
    constructor
    · exact Or.inl
    · rintro (hy | rfl)
      · exact hy
      · exact h
  · simp [setAdd, if_neg h]

theorem setAdd_of_mem (l : List Q) (x : Q) (h : x ∈ l) : setAdd l x = l := by
  simp [setAdd, h]

end SetAdd

section NFADef

variable {Q Sym : Type} [DecidableEq Q] [DecidableEq Sym]

/-- The NFA record of the source: states, alphabet, a transition dict keyed
by pairs of a state and a symbol with destination sets as values, an
optional start state (None until configured) and the accepting states.
A lambda transition is keyed by the empty-string symbol, embedded as the
none case. -/
structure NFA (Q Sym : Type) where
  states : Finset Q
  alphabet : Finset Sym
  transitions : List ((Q × Option Sym) × List Q)
  start_state : Option Q
  accept_states : Finset Q

/-- The freshly constructed NFA: empty sets, empty dict, no start state. -/
def NFA.empty : NFA Q Sym :=
  ⟨∅, ∅, [], none, ∅⟩

/-- set_start_state: record the start state and add it to the state set. -/
def NFA.set_start_state (m : NFA Q Sym) (state : Q) : NFA Q Sym :=
  { m with start_state := some state, states := insert state m.states }

/-- add_accept_state: add the state to the accepting set and the state set. -/
def NFA.add_accept_state (m : NFA Q Sym) (state : Q) : NFA Q Sym :=
  { m with accept_states := insert state m.accept_states,
           states := insert state m.states }

/-- add_transition: add both endpoint states, register a non-lambda symbol
in the alphabet, then insert the destination into the (possibly freshly
created) destination set stored under the key of the source state and the
symbol. -/
def NFA.add_transition (m : NFA Q Sym) (from_state : Q) (input_symbol : Option Sym)
    (to_state : Q) : NFA Q Sym :=
  { m with
    states := insert to_state (insert from_state m.states),
    alphabet := match input_symbol with
      | some s => insert s m.alphabet
      | none => m.alphabet,
    transitions :=
      dictSet m.transitions (from_state, input_symbol)
        (setAdd (dictGetD m.transitions (from_state, input_symbol) []) to_state) }

/-- The destinations of the lambda transitions leaving a state: the dict
entry at the key of the state and the lambda symbol, or the empty set. -/
def lambdaDests (m : NFA Q Sym) (q : Q) : List Q :=
  dictGetD m.transitions (q, none) []

/-- The lambda destinations of a state that are not yet in the closure,
each taken once: exactly the states the worklist loop adds to the closure
and pushes onto the stack when it pops the state. -/
def lamNew (m : NFA Q Sym) (closure : List Q) (q : Q) : List Q :=
  ((lambdaDests m q).filter (fun x => x ∉ closure)).dedup

/-- All destination states stored anywhere in the transition dict; the
worklist only ever pushes states from this finite set, which bounds the
closure computation. -/
def transDests (m : NFA Q Sym) : Finset Q :=
  m.transitions.foldr (fun kv acc => kv.2.toFinset ∪ acc) ∅

theorem mem_foldr_union_of_lookup {κ : Type} [DecidableEq κ]
    (l : List (κ × List Q)) (k : κ) (x : Q) (hx : x ∈ dictGetD l k []) :
    x ∈ l.foldr (fun kv acc => kv.2.toFinset ∪ acc) ∅ := by
  induction l with
  | nil => simp [dictGetD, dictLookup] at hx
  | cons hd tl ih =>
      obtain ⟨a, b⟩ := hd
      by_cases hk : k = a
      · simp only [dictGetD, dictLookup, if_pos hk, Option.getD_some] at hx
        simp only [List.foldr, Finset.mem_union, List.mem_toFinset]
        exact Or.inl hx
      · simp only [dictGetD, dictLookup, if_neg hk] at hx
        simp only [List.foldr, Finset.mem_union]
        exact Or.inr (ih hx)

theorem mem_transDests_of_lookup (m : NFA Q Sym) (k : Q × Option Sym)
    (x : Q) (hx : x ∈ dictGetD m.transitions k []) : x ∈ transDests m :=
  mem_foldr_union_of_lookup m.transitions k x hx

theorem lamNew_nodup (m : NFA Q Sym) (closure : List Q) (q : Q) :
    (lamNew m closure q).Nodup :=
  List.nodup_dedup _

theorem mem_lamNew (m : NFA Q Sym) (closure : List Q) (q : Q) (x : Q) :
    x ∈ lamNew m closure q ↔ x ∈ lambdaDests m q ∧ x ∉ closure := by
  simp [lamNew, List.mem_dedup, List.mem_filter]

theorem lamNew_toFinset_subset (m : NFA Q Sym) (closure : List Q) (q : Q) :
    (lamNew m closure q).toFinset ⊆ transDests m \ closure.toFinset := by
  intro x hx
  rw [List.mem_toFinset, mem_lamNew] at hx
  rw [Finset.mem_sdiff, List.mem_toFinset]
  exact ⟨mem_transDests_of_lookup m (q, none) x hx.1, hx.2⟩

theorem lamNew_measure_dec (m : NFA Q Sym) (closure : List Q) (cur : Q)
    (rest : List Q) :
    (transDests m \ (closure ++ lamNew m closure cur).toFinset).card +
        ((lamNew m closure cur).reverse ++ rest).length <
      (transDests m \ closure.toFinset).card + (cur :: rest).length := by
  set N := lamNew m closure cur with hN
  have hsub : N.toFinset ⊆ transDests m \ closure.toFinset :=
    lamNew_toFinset_subset m closure cur
  have hsd : transDests m \ (closure ++ N).toFinset =
      (transDests m \ closure.toFinset) \ N.toFinset := by
    ext x
    simp only [Finset.mem_sdiff, List.toFinset_append, Finset.mem_union]
    tauto
  have hcard : ((transDests m \ closure.toFinset) \ N.toFinset).card =
      (transDests m \ closure.toFinset).card - N.toFinset.card :=
    Finset.card_sdiff hsub
  have hle : N.toFinset.card ≤ (transDests m \ closure.toFinset).card :=
    Finset.card_le_card hsub
  have hlen : N.toFinset.card = N.length :=
    List.toFinset_card_of_nodup (lamNew_nodup m closure cur)
  simp only [hsd, hcard, hlen, List.length_append, List.length_reverse,
    List.length_cons]
  omega

/-- The worklist loop of the lambda-closure computation: pop a state from
the top of the stack, add its lambda destinations that are not yet in the
closure to the closure, and push them onto the stack. -/
def closureLoop (m : NFA Q Sym) (closure : List Q) : List Q → List Q
  | [] => closure
  | cur :: rest =>
      closureLoop m (closure ++ lamNew m closure cur)
        ((lamNew m closure cur).reverse ++ rest)
termination_by stack => (transDests m \ closure.toFinset).card + stack.length
decreasing_by
  exact lamNew_measure_dec m closure cur rest

/-- The lambda-closure of a set of states: start the worklist with the
closure equal to the input set and the stack holding its elements. -/
def get_lambda_closure (m : NFA Q Sym) (states : List Q) : List Q :=
  closureLoop m states states

/-- A step-counting version of the worklist loop, which gives up when the
fuel runs out: makes the termination of the loop a provable statement. -/
def closureFuel (m : NFA Q Sym) : Nat → List Q → List Q → Option (List Q)
  | 0, _, _ => none
  | _ + 1, closure, [] => some closure
  | fuel + 1, closure, cur :: rest =>
      closureFuel m fuel (closure ++ lamNew m closure cur)
        ((lamNew m closure cur).reverse ++ rest)

/-- One pass of the inner loops of process_string: for every active state,
collect all destinations stored under the key of the state and the symbol
into the next set of states. -/
def nextStates (m : NFA Q Sym) (current : List Q) (sym : Sym) : List Q :=
  current.foldl
    (fun acc st => (dictGetD m.transitions (st, some sym) []).foldl setAdd acc) []

/-- The body of the symbol loop: move on the symbol, then take the
lambda-closure of the result. -/
def stepSymbol (m : NFA Q Sym) (current : List Q) (sym : Sym) : List Q :=
  get_lambda_closure m (nextStates m current sym)

/-- The symbol loop of process_string, with the early exit of the source:
as soon as the active set becomes empty the remaining symbols are skipped. -/
def processLoop (m : NFA Q Sym) (current : List Q) : List Sym → List Q
  | [] => current
  | sym :: rest =>
      let next := stepSymbol m current sym
      if next = [] then next else processLoop m next rest

/-- process_string: reject when no start state is configured; otherwise run
the symbol loop from the lambda-closure of the singleton start state and
accept exactly when the final active set meets the accepting set. -/
def process_string (m : NFA Q Sym) (input : List Sym) : Bool :=
  match m.start_state with
  | none => false
  | some s =>
      (processLoop m (get_lambda_closure m [s]) input).any
        (fun q => decide (q ∈ m.accept_states))

/-- The symbol loop without the early exit, written as a plain fold over
the input as the specification describes it. -/
def processFold (m : NFA Q Sym) (active : List Q) (input : List Sym) : List Q :=
  input.foldl (stepSymbol m) active

/-- Evaluation without the early-exit optimization: the comparison point
for the early-termination-equivalence claim of the specification. -/
def process_string_no_early (m : NFA Q Sym) (input : List Sym) : Bool :=
  match m.start_state with
  | none => false
  | some s =>
      (processFold m (get_lambda_closure m [s]) input).any
        (fun q => decide (q ∈ m.accept_states))

end NFADef

section Ops

variable {Q Sym : Type} [DecidableEq Q] [DecidableEq Sym]

/-- One call of the NFA construction interface. -/
inductive NFAOp (Q Sym : Type) where
  | setStart (state : Q)
  | addAccept (state : Q)
  | addTrans (from_state : Q) (input_symbol : Option Sym) (to_state : Q)

/-- Apply one mutator call to an NFA. -/
def applyOp (m : NFA Q Sym) : NFAOp Q Sym → NFA Q Sym
  | .setStart q => m.set_start_state q
  | .addAccept q => m.add_accept_state q
  | .addTrans f s t => m.add_transition f s t

/-- The NFA obtained from a freshly constructed automaton by a sequence of
mutator calls. -/
def buildNFA (ops : List (NFAOp Q Sym)) : NFA Q Sym :=
  ops.foldl applyOp NFA.empty

/-- The data-model invariants of the NFA: the start state, once set, is a
known state; accepting states are known states; every transition source
and destination is a known state; every non-lambda transition symbol is in
the alphabet; and no stored destination set is empty. -/
def NFAInv (m : NFA Q Sym) : Prop :=
  (∀ s, m.start_state = some s → s ∈ m.states) ∧
  (∀ q ∈ m.accept_states, q ∈ m.states) ∧
  (∀ k d, dictLookup m.transitions k = some d →
    k.1 ∈ m.states ∧ (∀ q ∈ d, q ∈ m.states) ∧
    (∀ sym, k.2 = some sym → sym ∈ m.alphabet) ∧ d ≠ [])

end Ops

section AFDDef

variable {Q Sym : Type} [DecidableEq Q] [DecidableEq Sym]

/-- The AFD record of the source: states, alphabet, a transition dict keyed
by pairs of a state and a symbol with a single destination as value, the
start state (none models the Python value None, that is an unconfigured
start) and the final states. -/
structure AFD (Q Sym : Type) where
  estados : Finset Q
  alfabeto : Finset Sym
  transicoes : List ((Q × Sym) × Q)
  estado_inicial : Option Q
  estados_finais : Finset Q

/-- The symbol loop of simular: the current state is optional because the
dict lookup of a missing key yields None, and an unconfigured start state
is None as well.  A symbol outside the alphabet rejects at once; a missing
transition rejects at once; otherwise the loop continues in the unique
destination.  At the end of the input, accept exactly when the current
state is a final state (the value None is never a final state). -/
def simularGo (m : AFD Q Sym) : Option Q → List Sym → Bool
  | cur, [] =>
      match cur with
      | some s => decide (s ∈ m.estados_finais)
      | none => false
  | cur, sym :: rest =>
      if sym ∈ m.alfabeto then
        match cur with
        | none => false
        | some s =>
            match dictLookup m.transicoes (s, sym) with
            | none => false
            | some s' => simularGo m (some s') rest
      else false

/-- simular: run the symbol loop from the start state. -/
def simular (m : AFD Q Sym) (cadeia : List Sym) : Bool :=
  simularGo m m.estado_inicial cadeia

/-- Modelled from the spec: the DFA construction interface is missing from
the source (the AFD there is filled in by its constructor); section 4.2
gives its mutators the same shape as the NFA ones minus the epsilon case.
set_start records the start state and registers it. -/
def AFD.set_start (m : AFD Q Sym) (state : Q) : AFD Q Sym :=
  { m with estado_inicial := some state, estados := insert state m.estados }

/-- Modelled from the spec: the DFA construction interface is missing from
the source; section 4.2 gives its mutators the same shape as the NFA ones
minus the epsilon case.  add_accept adds the state to the final set and
registers it. -/
def AFD.add_accept (m : AFD Q Sym) (state : Q) : AFD Q Sym :=
  { m with estados_finais := insert state m.estados_finais,
           estados := insert state m.estados }

/-- Modelled from the spec: the DFA construction interface is missing from
the source; section 4.2 gives its mutators the same shape as the NFA ones
minus the epsilon case, with a real alphabet symbol and a single stored
destination per key, last write wins.  add_transition registers both
endpoint states and the symbol and overwrites any prior destination for
the key. -/
def AFD.add_transition (m : AFD Q Sym) (from_state : Q) (symbol : Sym)
    (to_state : Q) : AFD Q Sym :=
  { m with
    estados := insert to_state (insert from_state m.estados),
    alfabeto := insert symbol m.alfabeto,
    transicoes := dictSet m.transicoes (from_state, symbol) to_state }

end AFDDef

section ClosureLemmas

variable {Q Sym : Type} [DecidableEq Q] [DecidableEq Sym]

theorem closureLoop_nil (m : NFA Q Sym) (closure : List Q) :
    closureLoop m closure [] = closure := by
  rw [closureLoop]

theorem closureLoop_cons (m : NFA Q Sym) (closure : List Q) (cur : Q)
    (rest : List Q) :
    closureLoop m closure (cur :: rest) =
      closureLoop m (closure ++ lamNew m closure cur)
        ((lamNew m closure cur).reverse ++ rest) := by
  rw [closureLoop]

theorem mem_closureLoop_of_mem (m : NFA Q Sym) :
    ∀ (closure stack : List Q) (x : Q), x ∈ closure →
      x ∈ closureLoop m closure stack := by
  intro closure stack
  induction closure, stack using closureLoop.induct m with
  | case1 closure =>
      intro x hx
      rw [closureLoop_nil]
      exact hx
  | case2 closure cur rest ih =>
      intro x hx
      rw [closureLoop_cons]
      exact ih x (List.mem_append_left _ hx)

theorem lamNew_eq_nil_of_subset (m : NFA Q Sym) (closure : List Q) (q : Q)
    (h : ∀ x ∈ lambdaDests m q, x ∈ closure) : lamNew m closure q = [] := by
  unfold lamNew
  rw [List.dedup_eq_nil]
  rw [List.filter_eq_nil_iff]
  intro a ha
  simp only [decide_not, Bool.not_eq_true', decide_eq_false_iff_not, not_not]
  exact h a ha

/-- Once every state reachable by the pending stack is already saturated,
the worklist loop adds nothing: the closure list is returned unchanged. -/
theorem closureLoop_closed_id (m : NFA Q Sym) :
    ∀ (closure stack : List Q),
      (∀ q ∈ stack, ∀ x ∈ lambdaDests m q, x ∈ closure) →
      closureLoop m closure stack = closure := by
  intro closure stack
  induction closure, stack using closureLoop.induct m with
  | case1 closure =>
      intro _
      exact closureLoop_nil m closure
  | case2 closure cur rest ih =>
      intro h
      have hl : lamNew m closure cur = [] :=
        lamNew_eq_nil_of_subset m closure cur (h cur (List.mem_cons_self cur rest))
      rw [closureLoop_cons]
      rw [hl] at ih ⊢
      simp only [List.append_nil, List.reverse_nil, List.nil_append] at ih ⊢
      exact ih (fun q hq => h q (List.mem_cons_of_mem cur hq))

/-- The worklist invariant: every state of the closure is either still
pending on the stack or already has all its lambda destinations in the
closure; when the stack empties, the result is lambda-closed. -/
theorem closureLoop_closed (m : NFA Q Sym) :
    ∀ (closure stack : List Q),
      (∀ s ∈ closure, s ∈ stack ∨ ∀ x ∈ lambdaDests m s, x ∈ closure) →
      ∀ s ∈ closureLoop m closure stack, ∀ x ∈ lambdaDests m s,
        x ∈ closureLoop m closure stack := by
  intro closure stack
  induction closure, stack using closureLoop.induct m with
  | case1 closure =>
      intro h s hs x hx
      rw [closureLoop_nil] at hs ⊢
      rcases h s hs with hmem | hclosed
      · exact absurd hmem (List.not_mem_nil s)
      · exact hclosed x hx
  | case2 closure cur rest ih =>
      intro h
      rw [closureLoop_cons]
      apply ih
      intro s hs
      rcases List.mem_append.mp hs with hsc | hsn
      · rcases h s hsc with hstack | hclosed
        · rcases List.mem_cons.mp hstack with rfl | hrest
          · right
            intro x hx
            by_cases hxc : x ∈ closure
            · exact List.mem_append_left _ hxc
            · exact List.mem_append_right _
                ((mem_lamNew m closure s x).mpr ⟨hx, hxc⟩)
          · left
            exact List.mem_append_right _ hrest
        · right
          intro x hx
          exact List.mem_append_left _ (hclosed x hx)
      · left
        exact List.mem_append_left _ (List.mem_reverse.mpr hsn)

theorem mem_get_lambda_closure_of_mem (m : NFA Q Sym) (S : List Q) (x : Q)
    (hx : x ∈ S) : x ∈ get_lambda_closure m S :=
  mem_closureLoop_of_mem m S S x hx

theorem get_lambda_closure_closed (m : NFA Q Sym) (S : List Q) :
    ∀ s ∈ get_lambda_closure m S, ∀ x ∈ lambdaDests m s,
      x ∈ get_lambda_closure m S :=
  closureLoop_closed m S S (fun _ hs => Or.inl hs)

theorem closureFuel_eq (m : NFA Q Sym) :
    ∀ (fuel : Nat) (closure stack : List Q),
      (transDests m \ closure.toFinset).card + stack.length < fuel →
      closureFuel m fuel closure stack = some (closureLoop m closure stack) := by
  intro fuel
  induction fuel with
  | zero =>
      intro closure stack h
      omega
  | succ fuel ih =>
      intro closure stack h
      match stack with
      | [] =>
          rw [closureLoop_nil]
          rfl
      | cur :: rest =>
          rw [closureLoop_cons]
          show closureFuel m fuel _ _ = _
          apply ih
          have hdec := lamNew_measure_dec m closure cur rest
          omega

end ClosureLemmas

section ProcessLemmas

variable {Q Sym : Type} [DecidableEq Q] [DecidableEq Sym]

theorem get_lambda_closure_nil (m : NFA Q Sym) :
    get_lambda_closure m [] = [] := by
  unfold get_lambda_closure
  exact closureLoop_nil m []

theorem stepSymbol_nil_active (m : NFA Q Sym) (sym : Sym) :
    stepSymbol m [] sym = [] := by
  unfold stepSymbol nextStates
  simp only [List.foldl_nil]
  exact get_lambda_closure_nil m

theorem processFold_nil_active (m : NFA Q Sym) :
    ∀ input : List Sym, processFold m [] input = [] := by
  intro input
  induction input with
  | nil => rfl
  | cons sym rest ih =>
      unfold processFold at ih ⊢
      rw [List.foldl_cons, stepSymbol_nil_active m sym]
      exact ih

/-- The early exit of the symbol loop is sound: once the active set is
empty it stays empty, so breaking out of the loop returns the same set the
full fold would have produced. -/
theorem processLoop_eq_processFold (m : NFA Q Sym) :
    ∀ (input : List Sym) (current : List Q),
      processLoop m current input = processFold m current input := by
  intro input
  induction input with
  | nil =>
      intro current
      rfl
  | cons sym rest ih =>
      intro current
      show (if stepSymbol m current sym = [] then stepSymbol m current sym
            else processLoop m (stepSymbol m current sym) rest) = _
      unfold processFold
      rw [List.foldl_cons]
      by_cases hn : stepSymbol m current sym = []
      · rw [if_pos hn, hn]
        exact (processFold_nil_active m rest).symm
      · rw [if_neg hn]
        exact ih (stepSymbol m current sym)

end ProcessLemmas

section InvLemmas

variable {Q Sym : Type} [DecidableEq Q] [DecidableEq Sym]

theorem NFAInv_empty : NFAInv (NFA.empty : NFA Q Sym) := by
  refine ⟨?_, ?_, ?_⟩
  · intro s hs
    simp [NFA.empty] at hs
  · intro q hq
    simp [NFA.empty] at hq
  · intro k d hd
    simp [NFA.empty, dictLookup] at hd

theorem NFAInv_set_start_state (m : NFA Q Sym) (q : Q) (h : NFAInv m) :
    NFAInv (m.set_start_state q) := by
  obtain ⟨_, haccept, htrans⟩ := h
  refine ⟨?_, ?_, ?_⟩
  · intro s hs
    simp only [NFA.set_start_state, Option.some.injEq] at hs
    simp [NFA.set_start_state, hs]
  · intro x hx
    exact Finset.mem_insert_of_mem (haccept x hx)
  · intro k d hd
    obtain ⟨h1, h2, h3, h4⟩ := htrans k d hd
    exact ⟨Finset.mem_insert_of_mem h1,
      fun x hx => Finset.mem_insert_of_mem (h2 x hx), h3, h4⟩

theorem NFAInv_add_accept_state (m : NFA Q Sym) (q : Q) (h : NFAInv m) :
    NFAInv (m.add_accept_state q) := by
  obtain ⟨hstart, haccept, htrans⟩ := h
  refine ⟨?_, ?_, ?_⟩
  · intro s hs
    exact Finset.mem_insert_of_mem (hstart s hs)
  · intro x hx
    rcases Finset.mem_insert.mp hx with rfl | hx
    · exact Finset.mem_insert_self x _
    · exact Finset.mem_insert_of_mem (haccept x hx)
  · intro k d hd
    obtain ⟨h1, h2, h3, h4⟩ := htrans k d hd
    exact ⟨Finset.mem_insert_of_mem h1,
      fun x hx => Finset.mem_insert_of_mem (h2 x hx), h3, h4⟩

theorem setAdd_ne_nil (l : List Q) (x : Q) : setAdd l x ≠ [] := by
  unfold setAdd
  by_cases h : x ∈ l
  · rw [if_pos h]
    intro hl
    rw [hl] at h
    exact List.not_mem_nil x h
  · rw [if_neg h]
    simp

theorem NFAInv_add_transition (m : NFA Q Sym) (f : Q) (s : Option Sym) (t : Q)
    (h : NFAInv m) : NFAInv (m.add_transition f s t) := by
  obtain ⟨hstart, haccept, htrans⟩ := h
  have hstates : ∀ x ∈ m.states, x ∈ (m.add_transition f s t).states := by
    intro x hx
    exact Finset.mem_insert_of_mem (Finset.mem_insert_of_mem hx)
  have halpha : ∀ a ∈ m.alphabet, a ∈ (m.add_transition f s t).alphabet := by
    intro a ha
    unfold NFA.add_transition
    match s with
    | some b => exact Finset.mem_insert_of_mem ha
    | none => exact ha
  refine ⟨?_, ?_, ?_⟩
  · intro x hx
    exact hstates x (hstart x hx)
  · intro x hx
    exact hstates x (haccept x hx)
  · intro k d hd
    have hlook : dictLookup (m.add_transition f s t).transitions k =
        if k = (f, s) then
          some (setAdd (dictGetD m.transitions (f, s) []) t)
        else dictLookup m.transitions k := by
      unfold NFA.add_transition
      exact dictLookup_dictSet m.transitions (f, s) k _
    rw [hlook] at hd
    by_cases hk : k = (f, s)
    · rw [if_pos hk] at hd
      subst hk
      obtain rfl : d = setAdd (dictGetD m.transitions (f, s) []) t :=
        (Option.some.injEq _ _ ▸ hd).symm
      refine ⟨?_, ?_, ?_, ?_⟩
      · exact Finset.mem_insert_of_mem (Finset.mem_insert_self f _)
      · intro x hx
        rcases (mem_setAdd _ t x).mp hx with hx | rfl
        · unfold dictGetD at hx
          match hl : dictLookup m.transitions (f, s) with
          | some d0 =>
              rw [hl] at hx
              exact hstates x ((htrans (f, s) d0 hl).2.1 x hx)
          | none =>
              rw [hl] at hx
              exact absurd hx (List.not_mem_nil x)
        · exact Finset.mem_insert_self x _
      · intro sym hsym
        obtain rfl : s = some sym := hsym
        simp [NFA.add_transition]
      · exact setAdd_ne_nil _ t
    · rw [if_neg hk] at hd
      obtain ⟨h1, h2, h3, h4⟩ := htrans k d hd
      exact ⟨hstates _ h1, fun x hx => hstates x (h2 x hx),
        fun sym hsym => halpha sym (h3 sym hsym), h4⟩

theorem NFAInv_applyOp (m : NFA Q Sym) (op : NFAOp Q Sym) (h : NFAInv m) :
    NFAInv (applyOp m op) := by
  match op with
  | .setStart q => exact NFAInv_set_start_state m q h
  | .addAccept q => exact NFAInv_add_accept_state m q h
  | .addTrans f s t => exact NFAInv_add_transition m f s t h

theorem NFAInv_foldl :
    ∀ (ops : List (NFAOp Q Sym)) (m : NFA Q Sym), NFAInv m →
      NFAInv (ops.foldl applyOp m) := by
  intro ops
  induction ops with
  | nil =>
      intro m h
      exact h
  | cons op rest ih =>
      intro m h
      rw [List.foldl_cons]
      exact ih (applyOp m op) (NFAInv_applyOp m op h)

theorem NFAInv_buildNFA (ops : List (NFAOp Q Sym)) : NFAInv (buildNFA ops) :=
  NFAInv_foldl ops NFA.empty NFAInv_empty

end InvLemmas

section DeadSymbol

variable {Q Sym : Type} [DecidableEq Q] [DecidableEq Sym]

theorem dictGetD_dead (m : NFA Q Sym) (h : NFAInv m) (sym : Sym)
    (hsym : sym ∉ m.alphabet) (st : Q) :
    dictGetD m.transitions (st, some sym) [] = [] := by
  unfold dictGetD
  match hl : dictLookup m.transitions (st, some sym) with
  | none => rfl
  | some d => exact absurd ((h.2.2 (st, some sym) d hl).2.2.1 sym rfl) hsym

theorem nextStates_dead (m : NFA Q Sym) (h : NFAInv m) (sym : Sym)
    (hsym : sym ∉ m.alphabet) (current : List Q) :
    nextStates m current sym = [] := by
  unfold nextStates
  suffices h' : ∀ (cur acc : List Q),
      cur.foldl (fun acc st =>
        (dictGetD m.transitions (st, some sym) []).foldl setAdd acc) acc = acc by
    exact h' current []
  intro cur
  induction cur with
  | nil =>
      intro acc
      rfl
  | cons st rest ih =>
      intro acc
      rw [List.foldl_cons, dictGetD_dead m h sym hsym st]
      exact ih acc

theorem stepSymbol_dead (m : NFA Q Sym) (h : NFAInv m) (sym : Sym)
    (hsym : sym ∉ m.alphabet) (current : List Q) :
    stepSymbol m current sym = [] := by
  unfold stepSymbol
  rw [nextStates_dead m h sym hsym current]
  exact get_lambda_closure_nil m

theorem processLoop_dead (m : NFA Q Sym) (h : NFAInv m) :
    ∀ (input : List Sym) (current : List Q) (sym : Sym), sym ∈ input →
      sym ∉ m.alphabet → processLoop m current input = [] := by
  intro input
  induction input with
  | nil =>
      intro current sym hmem _
      exact absurd hmem (List.not_mem_nil sym)
  | cons s rest ih =>
      intro current sym hmem hsym
      show (if stepSymbol m current s = [] then stepSymbol m current s
            else processLoop m (stepSymbol m current s) rest) = []
      by_cases hn : stepSymbol m current s = []
      · rw [if_pos hn]
        exact hn
      · rw [if_neg hn]
        rcases List.mem_cons.mp hmem with heq | hrest
        · subst heq
          exact absurd (stepSymbol_dead m h _ hsym current) hn
        · exact ih (stepSymbol m current s) sym hrest hsym

end DeadSymbol

section AFDLemmas

variable {Q Sym : Type} [DecidableEq Q] [DecidableEq Sym]

/-- Running the deterministic loop from the Python value None: the current
state can never become a real state again, so every input is rejected. -/
theorem simularGo_none (m : AFD Q Sym) :
    ∀ input : List Sym, simularGo m none input = false := by
  intro input
  cases input with
  | nil => rfl
  | cons sym rest => simp [simularGo]

end AFDLemmas

section EvalUnfold

variable {Q Sym : Type} [DecidableEq Q] [DecidableEq Sym]

theorem process_string_none (m : NFA Q Sym) (h : m.start_state = none)
    (input : List Sym) : process_string m input = false := by
  unfold process_string
  rw [h]

theorem process_string_some (m : NFA Q Sym) (s : Q)
    (h : m.start_state = some s) (input : List Sym) :
    process_string m input =
      (processLoop m (get_lambda_closure m [s]) input).any
        (fun q => decide (q ∈ m.accept_states)) := by
  unfold process_string
  rw [h]

theorem process_string_no_early_none (m : NFA Q Sym)
    (h : m.start_state = none) (input : List Sym) :
    process_string_no_early m input = false := by
  unfold process_string_no_early
  rw [h]

theorem process_string_no_early_some (m : NFA Q Sym) (s : Q)
    (h : m.start_state = some s) (input : List Sym) :
    process_string_no_early m input =
      (processFold m (get_lambda_closure m [s]) input).any
        (fun q => decide (q ∈ m.accept_states)) := by
  unfold process_string_no_early
  rw [h]

end EvalUnfold

section Examples

/-- The construction calls of the example automaton of the source, which
accepts exactly the strings aa and bb.  The named states of the source are
numbered: start 0, final 1, path_a1 2, path_a2 3, path_b1 4, path_b2 5. -/
def exampleOps : List (NFAOp Nat Char) :=
  [.setStart 0, .addAccept 1,
   .addTrans 0 none 2, .addTrans 0 none 4,
   .addTrans 2 (some 'a') 3, .addTrans 3 (some 'a') 1,
   .addTrans 4 (some 'b') 5, .addTrans 5 (some 'b') 1]

/-- The example NFA of the source, built through the mutators. -/
def exampleNFA : NFA Nat Char := buildNFA exampleOps

/-- The example AFD of the source: binary strings ending in 1, with the
states q0 and q1 numbered 0 and 1. -/
def exampleAFD : AFD Nat Char :=
  ⟨{0, 1}, {'0', '1'},
   [((0, '0'), 0), ((0, '1'), 1), ((1, '0'), 0), ((1, '1'), 1)],
   some 0, {1}⟩

/-- The example AFD with the start state left unconfigured. -/
def exampleAFDNoStart : AFD Nat Char :=
  { exampleAFD with estado_inicial := none }

end Examples

section Claims

variable {Q Sym : Type} [DecidableEq Q] [DecidableEq Sym]

/-- C1.  NFA sequence evaluation follows the subset-simulation algorithm:
with a start state set, the run starts at the lambda-closure of the
singleton start state, folds the per-symbol step (destinations of all
active states under the symbol, then lambda-closure) over the input in
order, and accepts exactly when the final active set meets the accepting
set. -/
theorem subset_simulation : ∀ (m : NFA Q Sym) (s : Q) (input : List Sym),
    m.start_state = some s →
    (process_string m input = true ↔
      ∃ q ∈ processFold m (get_lambda_closure m [s]) input,
        q ∈ m.accept_states) := by
  intro m s input h
  rw [process_string_some m s h input, processLoop_eq_processFold]
  simp [List.any_eq_true]

theorem subset_simulation_witness :
    exampleNFA.start_state = some 0 ∧
    (process_string exampleNFA ['a', 'a'] = true ↔
      ∃ q ∈ processFold exampleNFA (get_lambda_closure exampleNFA [0]) ['a', 'a'],
        q ∈ exampleNFA.accept_states) :=
  ⟨by decide, subset_simulation exampleNFA 0 ['a', 'a'] (by decide)⟩

/-- C2.  The lambda-closure returns a superset of its argument that is a
fixed point of the lambda-step: every member of the argument is in the
result, and every lambda destination of a member of the result is in the
result. -/
theorem closure_superset_fixed_point : ∀ (m : NFA Q Sym) (S : List Q),
    (∀ x ∈ S, x ∈ get_lambda_closure m S) ∧
    (∀ s ∈ get_lambda_closure m S, ∀ x ∈ lambdaDests m s,
      x ∈ get_lambda_closure m S) :=
  fun m S => ⟨mem_get_lambda_closure_of_mem m S, get_lambda_closure_closed m S⟩

theorem closure_superset_fixed_point_witness :
    (0 ∈ get_lambda_closure exampleNFA [0]) ∧
    (2 ∈ get_lambda_closure exampleNFA [0]) :=
  ⟨(closure_superset_fixed_point exampleNFA [0]).1 0 (by decide),
   (closure_superset_fixed_point exampleNFA [0]).2 0
     ((closure_superset_fixed_point exampleNFA [0]).1 0 (by decide))
     2 (by decide)⟩

/-- C3.  Evaluation terminates and is total: the worklist closure loop
reaches its result in a finite number of steps witnessed by an explicit
fuel bound, even when the lambda relation contains cycles, and
process_string returns one of the two booleans on every automaton and
every finite input. -/
theorem evaluation_terminates_total : ∀ (m : NFA Q Sym) (S : List Q)
    (input : List Sym),
    (∃ fuel, closureFuel m fuel S S = some (get_lambda_closure m S)) ∧
    (process_string m input = true ∨ process_string m input = false) := by
  intro m S input
  constructor
  · refine ⟨(transDests m \ S.toFinset).card + S.length + 1, ?_⟩
    exact closureFuel_eq m _ S S (by omega)
  · cases h : process_string m input
    · exact Or.inr rfl
    · exact Or.inl rfl

/-- C4.  The deterministic simulation starts at the start state; a symbol
outside the alphabet rejects immediately; a missing transition rejects
immediately; otherwise the run moves to the unique destination; and at the
end of the input it accepts exactly when the current state is final. -/
theorem afd_step_characterization : ∀ (m : AFD Q Sym) (input : List Sym)
    (s s' : Q) (sym : Sym) (rest : List Sym),
    simular m input = simularGo m m.estado_inicial input ∧
    simularGo m (some s) [] = decide (s ∈ m.estados_finais) ∧
    (sym ∉ m.alfabeto → simularGo m (some s) (sym :: rest) = false) ∧
    (sym ∈ m.alfabeto → dictLookup m.transicoes (s, sym) = none →
      simularGo m (some s) (sym :: rest) = false) ∧
    (sym ∈ m.alfabeto → dictLookup m.transicoes (s, sym) = some s' →
      simularGo m (some s) (sym :: rest) = simularGo m (some s') rest) := by
  intro m input s s' sym rest
  refine ⟨rfl, rfl, ?_, ?_, ?_⟩
  · intro h
    simp [simularGo, h]
  · intro h hl
    simp [simularGo, h, hl]
  · intro h hl
    simp [simularGo, h, hl]

theorem afd_step_characterization_witness :
    ('1' ∈ exampleAFD.alfabeto) ∧
    (dictLookup exampleAFD.transicoes (0, '1') = some 1) ∧
    simularGo exampleAFD (some 0) ['1'] = simularGo exampleAFD (some 1) [] :=
  ⟨by decide, by decide,
   (afd_step_characterization exampleAFD ['1'] 0 1 '1' []).2.2.2.2
     (by decide) (by decide)⟩

/-- C5.  For both automaton variants, evaluating any input with no start
state configured returns false rather than raising an error. -/
theorem no_start_rejects : ∀ (m : NFA Q Sym) (d : AFD Q Sym)
    (input inputd : List Sym),
    m.start_state = none → d.estado_inicial = none →
    process_string m input = false ∧ simular d inputd = false := by
  intro m d input inputd hm hd
  constructor
  · exact process_string_none m hm input
  · unfold simular
    rw [hd]
    exact simularGo_none d inputd

theorem no_start_rejects_witness :
    ((NFA.empty : NFA Nat Char).start_state = none) ∧
    (exampleAFDNoStart.estado_inicial = none) ∧
    (process_string (NFA.empty : NFA Nat Char) ['a'] = false ∧
      simular exampleAFDNoStart ['0', '1'] = false) :=
  ⟨rfl, rfl,
   no_start_rejects NFA.empty exampleAFDNoStart ['a'] ['0', '1'] rfl rfl⟩

/-- C6.  Early termination equivalence: stopping the symbol loop as soon
as the active set becomes empty produces the same boolean as iterating
over all remaining symbols without the early exit, for every automaton and
every input. -/
theorem early_termination_equiv : ∀ (m : NFA Q Sym) (input : List Sym),
    process_string m input = process_string_no_early m input := by
  intro m input
  cases hs : m.start_state with
  | none =>
      rw [process_string_none m hs input, process_string_no_early_none m hs input]
  | some s =>
      rw [process_string_some m s hs input,
        process_string_no_early_some m s hs input, processLoop_eq_processFold]

/-- C7.  After any sequence of mutator calls on a freshly constructed NFA,
the data-model invariants hold: the start state, once set, is a known
state; accepting states and transition endpoints are known states; every
non-lambda transition symbol is in the alphabet; and a key is present in
the transition dict only with a non-empty destination set. -/
theorem build_invariant : ∀ ops : List (NFAOp Q Sym), NFAInv (buildNFA ops) :=
  fun ops => NFAInv_buildNFA ops

theorem build_invariant_witness :
    (exampleNFA.start_state = some 0 ∧ 0 ∈ exampleNFA.states) ∧
    (dictLookup exampleNFA.transitions (2, some 'a') = some [3] ∧
      'a' ∈ exampleNFA.alphabet) :=
  ⟨⟨by decide, (build_invariant exampleOps).1 0 (by decide)⟩,
   ⟨by decide,
    ((build_invariant exampleOps).2.2 (2, some 'a') [3] (by decide)).2.2.1
      'a' rfl⟩⟩

/-- C8.  Construction is idempotent for both automaton variants: repeating
an add-transition call with the same arguments, an add-accept call with
the same state, or a set-start call with the same state leaves the
automaton exactly as after a single call.  The NFA mutators are those of
the source; the DFA mutators are modelled from the spec, section 4.2. -/
theorem construction_idempotent : ∀ (m : NFA Q Sym) (d : AFD Q Sym)
    (f : Q) (s : Option Sym) (t q : Q) (sym : Sym),
    ((m.add_transition f s t).add_transition f s t = m.add_transition f s t ∧
      (m.add_accept_state q).add_accept_state q = m.add_accept_state q ∧
      (m.set_start_state q).set_start_state q = m.set_start_state q) ∧
    ((d.add_transition f sym t).add_transition f sym t =
        d.add_transition f sym t ∧
      (d.add_accept q).add_accept q = d.add_accept q ∧
      (d.set_start q).set_start q = d.set_start q) := by
  intro m d f s t q sym
  constructor
  case right =>
    obtain ⟨es, alf, trd, ini, fin⟩ := d
    refine ⟨?_, ?_, ?_⟩
    · unfold AFD.add_transition
      simp only [AFD.mk.injEq]
      refine ⟨?_, Finset.insert_idem _ _, dictSet_dictSet_same _ _ _ _,
        trivial, trivial⟩
      ext x
      simp only [Finset.mem_insert]
      tauto
    · unfold AFD.add_accept
      simp only [AFD.mk.injEq]
      exact ⟨Finset.insert_idem _ _, trivial, trivial, trivial,
        Finset.insert_idem _ _⟩
    · unfold AFD.set_start
      simp only [AFD.mk.injEq]
      exact ⟨Finset.insert_idem _ _, trivial, trivial, trivial, trivial⟩
  case left =>
  obtain ⟨st, al, tr, ss, ac⟩ := m
  refine ⟨?_, ?_, ?_⟩
  · unfold NFA.add_transition
    simp only [NFA.mk.injEq]
    refine ⟨?_, ?_, ?_, trivial, trivial⟩
    · ext x
      simp only [Finset.mem_insert]
      tauto
    · cases s
      · rfl
      · exact Finset.insert_idem _ _
    · have hget : dictGetD (dictSet tr (f, s)
          (setAdd (dictGetD tr (f, s) []) t)) (f, s) [] =
          setAdd (dictGetD tr (f, s) []) t := by
        unfold dictGetD
        rw [dictLookup_dictSet]
        simp
      rw [hget, setAdd_of_mem _ t ((mem_setAdd _ t t).mpr (Or.inr rfl)),
        dictSet_dictSet_same]
  · unfold NFA.add_accept_state
    simp only [NFA.mk.injEq]
    exact ⟨Finset.insert_idem _ _, trivial, trivial, trivial,
      Finset.insert_idem _ _⟩
  · unfold NFA.set_start_state
    simp only [NFA.mk.injEq]
    exact ⟨Finset.insert_idem _ _, trivial, trivial, trivial, trivial⟩

/-- C9.  The lambda-closure is idempotent: applying it to its own result
returns the same set. -/
theorem closure_idempotent : ∀ (m : NFA Q Sym) (S : List Q),
    get_lambda_closure m (get_lambda_closure m S) = get_lambda_closure m S := by
  intro m S
  show closureLoop m (get_lambda_closure m S) (get_lambda_closure m S) =
    get_lambda_closure m S
  exact closureLoop_closed_id m _ _ (get_lambda_closure_closed m S)

/-- C10.  For every NFA built solely through its mutators, an input that
contains a symbol outside the alphabet is rejected: the symbol matches no
transition, the active set dies, and evaluation returns false. -/
theorem non_alphabet_rejects : ∀ (ops : List (NFAOp Q Sym))
    (input : List Sym) (sym : Sym),
    sym ∈ input → sym ∉ (buildNFA ops).alphabet →
    process_string (buildNFA ops) input = false := by
  intro ops input sym hmem hsym
  have hinv := NFAInv_buildNFA ops
  cases hstart : (buildNFA ops).start_state with
  | none => exact process_string_none (buildNFA ops) hstart input
  | some st =>
      rw [process_string_some (buildNFA ops) st hstart input,
        processLoop_dead (buildNFA ops) hinv input _ sym hmem hsym]
      rfl

theorem non_alphabet_rejects_witness :
    ('c' ∈ ['c', 'a', 'a']) ∧ ('c' ∉ exampleNFA.alphabet) ∧
    process_string exampleNFA ['c', 'a', 'a'] = false :=
  ⟨by decide, by decide,
   non_alphabet_rejects exampleOps ['c', 'a', 'a'] 'c' (by decide) (by decide)⟩

end Claims

end Automatos
